import Mathlib

/-!
Shallow embedding of the 1024/2048-style puzzle engine in `game.py`
(`Game.__init__`, `Game.add_new_tile`, `Game.move_left`, `Game.move_right`,
`Game.move_up`, `Game.move_down`, and the dispatch step of `main`),
together with proofs of the specified properties.

A board is a list of rows, each row a list of cell values; real boards are
4×4 (`Wf`).  The nondeterminism of `random.choice` is modelled by explicit
parameters: an index reduced modulo the number of candidates, and a coin for
the 2-versus-4 choice.
-/

namespace Game1024

/-- A row of the board: a list of cell values (length 4 on real boards). -/
abbrev Row := List Nat

/-- The board: a list of rows (4 rows of length 4 on real boards). -/
abbrev Board := List Row

/-- The inner `for k in range(col + 1, 4)` loop of `Game.move_left`, scanning
the candidate indices `ks` in order: cells equal to `0` are skipped; at the
first non-zero cell exactly one outcome is resolved and the loop breaks. -/
def scanKs (r : Row) (col : Nat) : List Nat → Row × Bool
  | [] => (r, false)
  | k :: ks =>
    if r.getD k 0 ≠ 0 then
      if r.getD col 0 = 0 then
        ((r.set col (r.getD k 0)).set k 0, true)
      else if r.getD col 0 = r.getD k 0 then
        ((r.set col (2 * r.getD col 0)).set k 0, true)
      else (r, false)
    else scanKs r col ks

/-- The body of one iteration of the outer `for col in range(3)` loop. -/
def mergeStep (r : Row) (col : Nat) : Row × Bool :=
  scanKs r col (List.range' (col + 1) (4 - (col + 1)))

/-- The `for col in range(3)` loop of `Game.move_left` on one row,
accumulating the changed flag. -/
def colsLoop (r : Row) (changed : Bool) : List Nat → Row × Bool
  | [] => (r, changed)
  | c :: cs =>
    let s := mergeStep r c
    colsLoop s.1 (changed || s.2) cs

/-- The effect of `Game.move_left` on a single row. -/
def moveRowLeft (r : Row) : Row × Bool :=
  colsLoop r false (List.range 3)

/-- Board-level `Game.move_left`: each row is processed independently; `changed` is the
disjunction of the per-row flags. -/
def move_left (b : Board) : Board × Bool :=
  let rs := b.map moveRowLeft
  (rs.map Prod.fst, rs.any Prod.snd)

/-- The transform `row.reverse()` applied to every row of the board. -/
def reverseRows (b : Board) : Board := b.map List.reverse

/-- Board-level `Game.move_right`: reverse each row, run `move_left`, reverse back. -/
def move_right (b : Board) : Board × Bool :=
  let s := move_left (reverseRows b)
  (reverseRows s.1, s.2)

/-- Python `zip` of four lists, truncating at the shortest list. -/
def zip4 : List Nat → List Nat → List Nat → List Nat → List Row
  | x :: xs, y :: ys, z :: zs, w :: ws => [x, y, z, w] :: zip4 xs ys zs ws
  | _, _, _, _ => []

/-- The transposition `list(map(list, zip(*self.board)))` for a board with its four rows
(the board of `Game` always has exactly four rows). -/
def transpose4 (b : Board) : Board :=
  match b with
  | [r0, r1, r2, r3] => zip4 r0 r1 r2 r3
  | _ => []

/-- Board-level `Game.move_up`: transpose, run `move_left`, transpose back. -/
def move_up (b : Board) : Board × Bool :=
  let s := move_left (transpose4 b)
  (transpose4 s.1, s.2)

/-- Board-level `Game.move_down`: transpose, run `move_right`, transpose back. -/
def move_down (b : Board) : Board × Bool :=
  let s := move_right (transpose4 b)
  (transpose4 s.1, s.2)

/-- The list `[(i, j) for i in range(4) for j in range(4) if self.board[i][j] == 0]`. -/
def empty_cells (b : Board) : List (Nat × Nat) :=
  (List.range 4).flatMap fun i =>
    ((List.range 4).filter fun j => (b.getD i []).getD j 0 = 0).map fun j => (i, j)

/-- The assignment `self.board[i][j] = v`. -/
def setCell (b : Board) (i j v : Nat) : Board :=
  b.set i ((b.getD i []).set j v)

/-- The Spawner `Game.add_new_tile`: if there is an empty cell, write `2` or `4`
(per the coin `four`) into the empty cell selected by `pick` (an arbitrary
index reduced modulo the number of empty cells, modelling `random.choice`);
otherwise do nothing. -/
def add_new_tile (b : Board) (pick : Nat) (four : Bool) : Board :=
  let ec := empty_cells b
  if ec.isEmpty then b
  else
    let ij := ec.getD (pick % ec.length) (0, 0)
    setCell b ij.1 ij.2 (if four then 4 else 2)

/-- The all-zero starting grid `[[0] * 4 for _ in range(4)]`. -/
def emptyBoard : Board := List.replicate 4 (List.replicate 4 0)

/-- Construction `Game.__init__`: start from the all-zero grid and spawn two tiles. -/
def initGame (p1 : Nat) (f1 : Bool) (p2 : Nat) (f2 : Bool) : Board :=
  add_new_tile (add_new_tile emptyBoard p1 f1) p2 f2

/-- Cell access `self.board[i][j]` (with default `0` out of range). -/
def cell (b : Board) (i j : Nat) : Nat := (b.getD i []).getD j 0

/-- Number of non-zero cells in a row. -/
def nzRow (r : Row) : Nat := r.countP fun v => v ≠ 0

/-- Number of non-zero cells on the board. -/
def nzBoard (b : Board) : Nat := (b.map nzRow).sum

/-- Sum of all cell values on the board. -/
def boardSum (b : Board) : Nat := (b.map List.sum).sum

/-- Well-formedness: exactly 4 rows, each of length 4. -/
def Wf (b : Board) : Prop := b.length = 4 ∧ ∀ r ∈ b, r.length = 4

/-- A legal cell value: `0` or a positive power of two. -/
def IsTile (v : Nat) : Prop := v = 0 ∨ ∃ n, v = 2 ^ (n + 1)

/-! ### Spec-side definitions (for the refinement claims) -/

/-- Spec §4.1, stated in the spec's words: at column position `c`, find the
*first* non-zero value among columns `c+1 .. 3`; if none, do nothing; else
resolve exactly one outcome. -/
def resolveSpec (r : Row) (c : Nat) : Row × Bool :=
  match (List.range' (c + 1) (4 - (c + 1))).find? (fun k => r.getD k 0 ≠ 0) with
  | none => (r, false)
  | some k =>
    if r.getD c 0 = 0 then ((r.set c (r.getD k 0)).set k 0, true)
    else if r.getD c 0 = r.getD k 0 then ((r.set c (2 * r.getD c 0)).set k 0, true)
    else (r, false)

/-- Spec §4.1: process column positions `c = 0, 1, 2` in increasing order,
each exactly once; the row flag is the disjunction of the three outcomes. -/
def specRowLeft (r : Row) : Row × Bool :=
  let s0 := resolveSpec r 0
  let s1 := resolveSpec s0.1 1
  let s2 := resolveSpec s1.1 2
  (s2.1, s0.2 || s1.2 || s2.2)

/-- Spec §4.1 direction derivation: Right = reverse each row, left algorithm,
reverse each row back. -/
def rightSpec (b : Board) : Board × Bool :=
  let s := move_left (b.map List.reverse)
  (s.1.map List.reverse, s.2)

/-- Spec §4.1 direction derivation: Up = transpose, left algorithm,
transpose back. -/
def upSpec (b : Board) : Board × Bool :=
  let s := move_left (transpose4 b)
  (transpose4 s.1, s.2)

/-- Spec §4.1 direction derivation: Down = transpose, then the right
algorithm spelled out (reverse rows, left algorithm, reverse rows), then
transpose back. -/
def downSpec (b : Board) : Board × Bool :=
  let s := move_left ((transpose4 b).map List.reverse)
  (transpose4 (s.1.map List.reverse), s.2)

/-! ### Measures, predicates and the game-loop step -/

/-- Row potential: a changed scan strictly decreases it, so a changed row
differs from the original. -/
def phi (r : Row) : Nat := r.getD 1 0 + 2 * r.getD 2 0 + 3 * r.getD 3 0

/-- Predicate transformer: `P` holds at every cell of the board. -/
def CellsP (P : Nat → Prop) (b : Board) : Prop := ∀ r ∈ b, ∀ v ∈ r, P v

/-- Number of zero (empty) cells in a row. -/
def zRow (r : Row) : Nat := r.countP fun v => v = 0

/-- Number of zero (empty) cells on the board. -/
def zBoard (b : Board) : Nat := (b.map zRow).sum

/-- The empty-cell count as the Spawner sees it: the length of the
enumerated list of empty cells. -/
def emptyCount (b : Board) : Nat := (empty_cells b).length

/-- A move direction. -/
inductive Dir where
  | up
  | down
  | left
  | right

/-- The engine call for each direction (the `moves` dict of `main`). -/
def applyDir : Dir → Board → Board × Bool
  | Dir.up => move_up
  | Dir.down => move_down
  | Dir.left => move_left
  | Dir.right => move_right

/-- The recognized movement keys of `main`. -/
def keyDir (m : String) : Option Dir :=
  if m = "w" then some Dir.up
  else if m = "s" then some Dir.down
  else if m = "a" then some Dir.left
  else if m = "d" then some Dir.right
  else none

/-- Python `str.lower()`, modelled per character (the dispatch keys are
ASCII). -/
def strLower (s : String) : String := String.mk (s.data.map Char.toLower)

/-- One iteration of the `main` loop, after reading the input line `s`:
lower-case the line; on `q` terminate (`none`); on a recognized movement key
run the move and, exactly when it reports a change, spawn once; on any other
input leave the board untouched. -/
def loopStep (b : Board) (s : String) (pick : Nat) (four : Bool) : Option Board :=
  let m := strLower s
  if m = "q" then none
  else
    match keyDir m with
    | some d =>
      let r := applyDir d b
      some (if r.2 then add_new_tile r.1 pick four else r.1)
    | none => some b

/-- One engine operation on the board: a move in some direction, or a
spawn with arbitrary choices. -/
inductive Step : Board → Board → Prop where
  | left (b : Board) : Step b (move_left b).1
  | right (b : Board) : Step b (move_right b).1
  | up (b : Board) : Step b (move_up b).1
  | down (b : Board) : Step b (move_down b).1
  | spawn (b : Board) (pick : Nat) (four : Bool) : Step b (add_new_tile b pick four)

/-- Board states reachable from construction by move and spawn operations. -/
inductive Reachable : Board → Prop where
  | init (p1 : Nat) (f1 : Bool) (p2 : Nat) (f2 : Bool) : Reachable (initGame p1 f1 p2 f2)
  | step {b b' : Board} : Reachable b → Step b b' → Reachable b'

/-! ### Basic list helpers -/

theorem getD_set_self {l : List Nat} {i : Nat} (v d : Nat) (h : i < l.length) :
    (l.set i v).getD i d = v := by
  rw [List.getD_eq_getElem _ _ (by simpa using h)]
  exact List.getElem_set_self _

theorem getD_set_other {l : List Nat} {i j : Nat} (v d : Nat) (h : i ≠ j) :
    (l.set i v).getD j d = l.getD j d := by
  simp [List.getD, List.getElem?_set_ne h]

theorem getD_mem_or (l : List Nat) (n d : Nat) : l.getD n d ∈ l ∨ l.getD n d = d := by
  rcases Nat.lt_or_ge n l.length with h | h
  · left
    rw [List.getD_eq_getElem _ _ h]
    exact List.getElem_mem h
  · right
    exact List.getD_eq_default _ _ h

theorem sum_set_add (l : List Nat) (i v : Nat) (h : i < l.length) :
    (l.set i v).sum + l.getD i 0 = l.sum + v := by
  induction l generalizing i with
  | nil => simp at h
  | cons a t ih =>
    cases i with
    | zero => simp [List.getD]; omega
    | succ n =>
      have hn : n < t.length := by simpa using h
      have := ih n hn
      simp only [List.set, List.sum_cons, List.getD_cons_succ]
      omega

theorem countP_set_add (p : Nat → Bool) (l : List Nat) (i v : Nat) (h : i < l.length) :
    (l.set i v).countP p + (if p (l.getD i 0) then 1 else 0) =
      l.countP p + (if p v then 1 else 0) := by
  induction l generalizing i with
  | nil => simp at h
  | cons a t ih =>
    cases i with
    | zero => simp [List.countP_cons, List.getD]; omega
    | succ n =>
      have hn : n < t.length := by simpa using h
      have := ih n hn
      simp only [List.set, List.countP_cons, List.getD_cons_succ]
      omega

theorem map_self_iff {α : Type} (f : α → α) (l : List α) :
    l.map f = l ↔ ∀ x ∈ l, f x = x := by
  induction l with
  | nil => simp
  | cons a t ih => simp [ih]

/-! ### Structure of the inner scan loop -/

theorem scanKs_length (r : Row) (c : Nat) (ks : List Nat) :
    (scanKs r c ks).1.length = r.length := by
  induction ks with
  | nil => rfl
  | cons k ks ih =>
    simp only [scanKs]
    split_ifs <;> simp [ih]

theorem scanKs_false {r : Row} {c : Nat} {ks : List Nat}
    (h : (scanKs r c ks).2 = false) : (scanKs r c ks).1 = r := by
  induction ks with
  | nil => rfl
  | cons k ks ih =>
    simp only [scanKs] at h ⊢
    split_ifs at h ⊢ <;> simp_all

theorem scanKs_skip {r : Row} {c k : Nat} (ks : List Nat) (h1 : r.getD k 0 = 0) :
    scanKs r c (k :: ks) = scanKs r c ks := by
  simp only [List.getD_eq_getElem?_getD] at h1
  simp [scanKs, h1]

theorem scanKs_relocate {r : Row} {c k : Nat} (ks : List Nat)
    (h1 : r.getD k 0 ≠ 0) (h2 : r.getD c 0 = 0) :
    scanKs r c (k :: ks) = ((r.set c (r.getD k 0)).set k 0, true) := by
  simp only [List.getD_eq_getElem?_getD] at h1 h2
  simp [scanKs, h1, h2]

theorem scanKs_merge {r : Row} {c k : Nat} (ks : List Nat)
    (h1 : r.getD k 0 ≠ 0) (h2 : r.getD c 0 ≠ 0) (h3 : r.getD c 0 = r.getD k 0) :
    scanKs r c (k :: ks) = ((r.set c (2 * r.getD c 0)).set k 0, true) := by
  simp only [List.getD_eq_getElem?_getD] at h1 h2 h3
  simp [scanKs, h1, h2, h3]

theorem scanKs_stuck {r : Row} {c k : Nat} (ks : List Nat)
    (h1 : r.getD k 0 ≠ 0) (h2 : r.getD c 0 ≠ 0) (h3 : r.getD c 0 ≠ r.getD k 0) :
    scanKs r c (k :: ks) = (r, false) := by
  simp only [List.getD_eq_getElem?_getD] at h1 h2 h3
  simp [scanKs, h1, h2, h3, if_neg h2]

/-- The scan loop resolves at the *first* non-zero candidate, exactly as the
spec describes via `find?`. -/
theorem scanKs_eq_find (r : Row) (c : Nat) (ks : List Nat) :
    scanKs r c ks =
      match ks.find? (fun k => r.getD k 0 ≠ 0) with
      | none => (r, false)
      | some k =>
        if r.getD c 0 = 0 then ((r.set c (r.getD k 0)).set k 0, true)
        else if r.getD c 0 = r.getD k 0 then ((r.set c (2 * r.getD c 0)).set k 0, true)
        else (r, false) := by
  induction ks with
  | nil => rfl
  | cons k ks ih =>
    by_cases h1 : r.getD k 0 = 0
    · have hf : (k :: ks).find? (fun k => r.getD k 0 ≠ 0) =
          ks.find? (fun k => r.getD k 0 ≠ 0) := by
        rw [List.find?_cons, decide_eq_false (not_not_intro h1)]
      rw [hf, scanKs_skip ks h1]
      exact ih
    · have hf : (k :: ks).find? (fun k => r.getD k 0 ≠ 0) = some k := by
        rw [List.find?_cons, decide_eq_true h1]
      rw [hf]
      show scanKs r c (k :: ks) =
        if r.getD c 0 = 0 then ((r.set c (r.getD k 0)).set k 0, true)
        else if r.getD c 0 = r.getD k 0 then ((r.set c (2 * r.getD c 0)).set k 0, true)
        else (r, false)
      by_cases h2 : r.getD c 0 = 0
      · rw [if_pos h2, scanKs_relocate ks h1 h2]
      · rw [if_neg h2]
        by_cases h3 : r.getD c 0 = r.getD k 0
        · rw [if_pos h3, scanKs_merge ks h1 h2 h3]
        · rw [if_neg h3, scanKs_stuck ks h1 h2 h3]

theorem phi_set {r : Row} (h4 : r.length = 4) {j : Nat} (v : Nat) (hj : j < 4) :
    phi (r.set j v) + j * r.getD j 0 = phi r + j * v := by
  unfold phi
  interval_cases j
  · rw [@getD_set_other r 0 1 v 0 (by omega), @getD_set_other r 0 2 v 0 (by omega),
      @getD_set_other r 0 3 v 0 (by omega)]
    omega
  · rw [@getD_set_self r 1 v 0 (by omega), @getD_set_other r 1 2 v 0 (by omega),
      @getD_set_other r 1 3 v 0 (by omega)]
    omega
  · rw [@getD_set_other r 2 1 v 0 (by omega), @getD_set_self r 2 v 0 (by omega),
      @getD_set_other r 2 3 v 0 (by omega)]
    omega
  · rw [@getD_set_other r 3 1 v 0 (by omega), @getD_set_other r 3 2 v 0 (by omega),
      @getD_set_self r 3 v 0 (by omega)]
    omega

theorem scanKs_phi_lt {r : Row} {c : Nat} {ks : List Nat} (h4 : r.length = 4)
    (hc : c < 4) (hks : ∀ k ∈ ks, c < k ∧ k < 4)
    (h : (scanKs r c ks).2 = true) : phi (scanKs r c ks).1 < phi r := by
  induction ks with
  | nil => simp [scanKs] at h
  | cons k ks ih =>
    obtain ⟨hck, hk4⟩ := hks k (by simp)
    by_cases h1 : r.getD k 0 = 0
    · rw [scanKs_skip ks h1] at h ⊢
      exact ih (fun x hx => hks x (by simp [hx])) h
    · by_cases h2 : r.getD c 0 = 0
      · -- relocate: the value at k moves to c
        rw [scanKs_relocate ks h1 h2]
        have hset4 : (r.set c (r.getD k 0)).length = 4 := by simp [h4]
        have e1 := phi_set hset4 (j := k) 0 hk4
        have e2 := phi_set h4 (j := c) (r.getD k 0) hc
        rw [@getD_set_other r c k (r.getD k 0) 0 (by omega)] at e1
        have hv : 0 < r.getD k 0 := Nat.pos_of_ne_zero h1
        rw [h2] at e2
        have hkv : (c + 1) * r.getD k 0 ≤ k * r.getD k 0 :=
          Nat.mul_le_mul_right _ hck
        have hcv : (c + 1) * r.getD k 0 = c * r.getD k 0 + r.getD k 0 := by ring
        -- e1 : phi ((r.set c v).set k 0) + k * v = phi (r.set c v) + k * 0
        -- e2 : phi (r.set c v) + c * 0 = phi r + c * v
        linarith [e1, e2]
      · by_cases h3 : r.getD c 0 = r.getD k 0
        · -- merge: the value at c doubles
          rw [scanKs_merge ks h1 h2 h3]
          have hset4 : (r.set c (2 * r.getD c 0)).length = 4 := by simp [h4]
          have e1 := phi_set hset4 (j := k) 0 hk4
          have e2 := phi_set h4 (j := c) (2 * r.getD c 0) hc
          rw [@getD_set_other r c k (2 * r.getD c 0) 0 (by omega), ← h3] at e1
          have hv : 0 < r.getD c 0 := Nat.pos_of_ne_zero h2
          have hkv : (c + 1) * r.getD c 0 ≤ k * r.getD c 0 :=
            Nat.mul_le_mul_right _ hck
          have hcv : (c + 1) * r.getD c 0 = c * r.getD c 0 + r.getD c 0 := by ring
          have hdbl : c * (2 * r.getD c 0) = c * r.getD c 0 + c * r.getD c 0 := by ring
          linarith [e1, e2]
        · rw [scanKs_stuck ks h1 h2 h3] at h
          exact absurd h (by simp)

theorem scanKs_phi_le {r : Row} {c : Nat} {ks : List Nat} (h4 : r.length = 4)
    (hc : c < 4) (hks : ∀ k ∈ ks, c < k ∧ k < 4) :
    phi (scanKs r c ks).1 ≤ phi r := by
  cases hb : (scanKs r c ks).2 with
  | false => rw [scanKs_false hb]
  | true => exact Nat.le_of_lt (scanKs_phi_lt h4 hc hks hb)

/-- The candidates fed to the scan at column `c < 3` are exactly
`c+1 .. 3`. -/
theorem mergeStep_candidates {c k : Nat} (hc : c < 3)
    (hk : k ∈ List.range' (c + 1) (4 - (c + 1))) : c < k ∧ k < 4 := by
  rw [List.mem_range'_1] at hk
  omega

theorem mergeStep_length (r : Row) (c : Nat) : (mergeStep r c).1.length = r.length :=
  scanKs_length ..

theorem mergeStep_false {r : Row} {c : Nat} (h : (mergeStep r c).2 = false) :
    (mergeStep r c).1 = r := scanKs_false h

theorem mergeStep_phi_lt {r : Row} {c : Nat} (h4 : r.length = 4) (hc : c < 3)
    (h : (mergeStep r c).2 = true) : phi (mergeStep r c).1 < phi r :=
  scanKs_phi_lt h4 (by omega) (fun _ => mergeStep_candidates hc) h

theorem colsLoop_length (r : Row) (ch : Bool) (cs : List Nat) :
    (colsLoop r ch cs).1.length = r.length := by
  induction cs generalizing r ch with
  | nil => rfl
  | cons c cs ih => simp only [colsLoop]; rw [ih, mergeStep_length]

theorem colsLoop_false (r : Row) (ch : Bool) (cs : List Nat)
    (h : (colsLoop r ch cs).2 = false) : (colsLoop r ch cs).1 = r ∧ ch = false := by
  induction cs generalizing r ch with
  | nil => exact ⟨rfl, h⟩
  | cons c cs ih =>
    simp only [colsLoop] at h ⊢
    obtain ⟨h1, h2⟩ := ih _ _ h
    rcases Bool.or_eq_false_iff.mp h2 with ⟨hch, hs⟩
    rw [h1, mergeStep_false hs]
    exact ⟨rfl, hch⟩

theorem colsLoop_phi_le (r : Row) (ch : Bool) (cs : List Nat) (h4 : r.length = 4)
    (hcs : ∀ c ∈ cs, c < 3) : phi (colsLoop r ch cs).1 ≤ phi r := by
  induction cs generalizing r ch with
  | nil => exact Nat.le_refl _
  | cons c cs ih =>
    simp only [colsLoop]
    have hc := hcs c (by simp)
    have h4' : (mergeStep r c).1.length = 4 := by rw [mergeStep_length, h4]
    have tail := ih (mergeStep r c).1 (ch || (mergeStep r c).2) h4'
      (fun x hx => hcs x (by simp [hx]))
    have head : phi (mergeStep r c).1 ≤ phi r := by
      cases hb : (mergeStep r c).2 with
      | false => rw [mergeStep_false hb]
      | true => exact Nat.le_of_lt (mergeStep_phi_lt h4 hc hb)
    omega

theorem colsLoop_phi_lt (r : Row) (ch : Bool) (cs : List Nat) (h4 : r.length = 4)
    (hcs : ∀ c ∈ cs, c < 3) (h : (colsLoop r ch cs).2 = true) :
    ch = true ∨ phi (colsLoop r ch cs).1 < phi r := by
  induction cs generalizing r ch with
  | nil => exact Or.inl h
  | cons c cs ih =>
    simp only [colsLoop] at h ⊢
    have hc := hcs c (by simp)
    have h4' : (mergeStep r c).1.length = 4 := by rw [mergeStep_length, h4]
    have tail := ih (mergeStep r c).1 (ch || (mergeStep r c).2) h4'
      (fun x hx => hcs x (by simp [hx])) h
    have tail_le := colsLoop_phi_le (mergeStep r c).1 (ch || (mergeStep r c).2) cs
      h4' (fun x hx => hcs x (by simp [hx]))
    rcases tail with hor | hlt
    · rcases Bool.or_eq_true_iff.mp hor with hch | hs
      · exact Or.inl hch
      · exact Or.inr (Nat.lt_of_le_of_lt tail_le (mergeStep_phi_lt h4 hc hs))
    · have head : phi (mergeStep r c).1 ≤ phi r := by
        cases hb : (mergeStep r c).2 with
        | false => rw [mergeStep_false hb]
        | true => exact Nat.le_of_lt (mergeStep_phi_lt h4 hc hb)
      exact Or.inr (Nat.lt_of_lt_of_le hlt head)

/-- The per-row changed flag is `false` exactly when the row is unchanged. -/
theorem moveRowLeft_flag_iff {r : Row} (h4 : r.length = 4) :
    (moveRowLeft r).2 = false ↔ (moveRowLeft r).1 = r := by
  constructor
  · intro h
    exact (colsLoop_false _ _ _ h).1
  · intro h
    by_contra hne
    have htrue : (moveRowLeft r).2 = true := by
      cases hb : (moveRowLeft r).2
      · exact absurd hb hne
      · rfl
    have hcs : ∀ c ∈ List.range 3, c < 3 := fun c hc => List.mem_range.mp hc
    rcases colsLoop_phi_lt r false (List.range 3) h4 hcs htrue with hff | hlt
    · exact Bool.false_ne_true hff
    · rw [show colsLoop r false (List.range 3) = moveRowLeft r from rfl, h] at hlt
      exact Nat.lt_irrefl _ hlt

theorem moveRowLeft_length (r : Row) : (moveRowLeft r).1.length = r.length :=
  colsLoop_length ..

/-! ### Board-level structure -/

theorem move_left_fst (b : Board) :
    (move_left b).1 = b.map fun r => (moveRowLeft r).1 := by
  simp [move_left, List.map_map, Function.comp]

theorem any_of_map {α β : Type} (f : α → β) (p : β → Bool) (l : List α) :
    (l.map f).any p = l.any fun x => p (f x) := by
  induction l with
  | nil => rfl
  | cons a t ih => simp [ih]

theorem move_left_snd (b : Board) :
    (move_left b).2 = b.any fun r => (moveRowLeft r).2 := by
  show (b.map moveRowLeft).any Prod.snd = _
  rw [any_of_map]

theorem move_left_wf {b : Board} (h : Wf b) : Wf (move_left b).1 := by
  obtain ⟨hlen, hrow⟩ := h
  rw [move_left_fst]
  constructor
  · simpa using hlen
  · intro r hr
    obtain ⟨r0, hr0, rfl⟩ := List.mem_map.mp hr
    rw [moveRowLeft_length]
    exact hrow r0 hr0

theorem reverseRows_reverseRows (b : Board) : reverseRows (reverseRows b) = b := by
  simp [reverseRows, List.map_map, Function.comp]

theorem reverseRows_wf {b : Board} (h : Wf b) : Wf (reverseRows b) := by
  obtain ⟨hlen, hrow⟩ := h
  constructor
  · simpa [reverseRows] using hlen
  · intro r hr
    obtain ⟨r0, hr0, rfl⟩ := List.mem_map.mp hr
    rw [List.length_reverse]
    exact hrow r0 hr0

theorem eq_four_of_length4 {α : Type} {l : List α} (h : l.length = 4) :
    ∃ a b c d, l = [a, b, c, d] := by
  rcases l with _ | ⟨a, _ | ⟨b, _ | ⟨c, _ | ⟨d, _ | ⟨e, t⟩⟩⟩⟩⟩
  · simp only [List.length_nil] at h
    omega
  · simp only [List.length_cons, List.length_nil] at h
    omega
  · simp only [List.length_cons, List.length_nil] at h
    omega
  · simp only [List.length_cons, List.length_nil] at h
    omega
  · exact ⟨a, b, c, d, rfl⟩
  · simp only [List.length_cons] at h
    omega

theorem row_eq_of_length4 {r : Row} (h : r.length = 4) :
    ∃ a b c d, r = [a, b, c, d] := eq_four_of_length4 h

theorem board_eq_of_wf {b : Board} (h : Wf b) :
    ∃ r0 r1 r2 r3, b = [r0, r1, r2, r3] ∧
      r0.length = 4 ∧ r1.length = 4 ∧ r2.length = 4 ∧ r3.length = 4 := by
  obtain ⟨hlen, hrow⟩ := h
  obtain ⟨r0, r1, r2, r3, rfl⟩ := eq_four_of_length4 hlen
  exact ⟨r0, r1, r2, r3, rfl, hrow r0 (by simp), hrow r1 (by simp),
    hrow r2 (by simp), hrow r3 (by simp)⟩

theorem transpose4_transpose4 {b : Board} (h : Wf b) :
    transpose4 (transpose4 b) = b := by
  obtain ⟨r0, r1, r2, r3, rfl, h0, h1, h2, h3⟩ := board_eq_of_wf h
  obtain ⟨a0, a1, a2, a3, rfl⟩ := row_eq_of_length4 h0
  obtain ⟨b0, b1, b2, b3, rfl⟩ := row_eq_of_length4 h1
  obtain ⟨c0, c1, c2, c3, rfl⟩ := row_eq_of_length4 h2
  obtain ⟨d0, d1, d2, d3, rfl⟩ := row_eq_of_length4 h3
  rfl

theorem transpose4_wf {b : Board} (h : Wf b) : Wf (transpose4 b) := by
  obtain ⟨r0, r1, r2, r3, rfl, h0, h1, h2, h3⟩ := board_eq_of_wf h
  obtain ⟨a0, a1, a2, a3, rfl⟩ := row_eq_of_length4 h0
  obtain ⟨b0, b1, b2, b3, rfl⟩ := row_eq_of_length4 h1
  obtain ⟨c0, c1, c2, c3, rfl⟩ := row_eq_of_length4 h2
  obtain ⟨d0, d1, d2, d3, rfl⟩ := row_eq_of_length4 h3
  constructor <;> simp [transpose4, zip4]

theorem move_right_wf {b : Board} (h : Wf b) : Wf (move_right b).1 :=
  reverseRows_wf (move_left_wf (reverseRows_wf h))

theorem move_up_wf {b : Board} (h : Wf b) : Wf (move_up b).1 :=
  transpose4_wf (move_left_wf (transpose4_wf h))

theorem move_down_wf {b : Board} (h : Wf b) : Wf (move_down b).1 :=
  transpose4_wf (move_right_wf (transpose4_wf h))

/-! ### Changed flag versus board identity -/

theorem move_left_flag_iff {b : Board} (h : ∀ r ∈ b, r.length = 4) :
    (move_left b).2 = false ↔ (move_left b).1 = b := by
  rw [move_left_fst, move_left_snd, map_self_iff]
  rw [List.any_eq_false]
  constructor
  · intro hall r hr
    exact (moveRowLeft_flag_iff (h r hr)).mp (by simpa using hall r hr)
  · intro hall r hr
    simpa using (moveRowLeft_flag_iff (h r hr)).mpr (hall r hr)

theorem reverseRows_inj {x b : Board} : reverseRows x = b ↔ x = reverseRows b := by
  constructor
  · intro h
    rw [← h, reverseRows_reverseRows]
  · intro h
    rw [h, reverseRows_reverseRows]

theorem move_right_flag_iff {b : Board} (h : Wf b) :
    (move_right b).2 = false ↔ (move_right b).1 = b := by
  have hrev : ∀ r ∈ reverseRows b, r.length = 4 := (reverseRows_wf h).2
  have hinner := move_left_flag_iff hrev
  show (move_left (reverseRows b)).2 = false ↔
    reverseRows (move_left (reverseRows b)).1 = b
  rw [reverseRows_inj]
  exact hinner

theorem transpose4_inj {x b : Board} (hx : Wf x) (hb : Wf b) :
    transpose4 x = b ↔ x = transpose4 b := by
  constructor
  · intro h
    rw [← h, transpose4_transpose4 hx]
  · intro h
    rw [h, transpose4_transpose4 hb]

theorem move_up_flag_iff {b : Board} (h : Wf b) :
    (move_up b).2 = false ↔ (move_up b).1 = b := by
  have ht : Wf (transpose4 b) := transpose4_wf h
  have hinner := move_left_flag_iff ht.2
  show (move_left (transpose4 b)).2 = false ↔
    transpose4 (move_left (transpose4 b)).1 = b
  rw [transpose4_inj (move_left_wf ht) h]
  exact hinner

theorem move_down_flag_iff {b : Board} (h : Wf b) :
    (move_down b).2 = false ↔ (move_down b).1 = b := by
  have ht : Wf (transpose4 b) := transpose4_wf h
  have hinner := move_right_flag_iff ht
  show (move_right (transpose4 b)).2 = false ↔
    transpose4 (move_right (transpose4 b)).1 = b
  rw [transpose4_inj (move_right_wf ht) h]
  exact hinner

/-! ### Sum preservation and non-zero count -/

theorem nzRow_set (r : Row) (i v : Nat) (h : i < r.length) :
    nzRow (r.set i v) + (if r.getD i 0 ≠ 0 then 1 else 0) =
      nzRow r + (if v ≠ 0 then 1 else 0) := by
  unfold nzRow
  have := countP_set_add (fun x => x ≠ 0) r i v h
  simpa using this

theorem scanKs_sum (r : Row) (c : Nat) (ks : List Nat) (hc : c < r.length)
    (hks : ∀ k ∈ ks, c < k ∧ k < r.length) : (scanKs r c ks).1.sum = r.sum := by
  induction ks with
  | nil => rfl
  | cons k ks ih =>
    obtain ⟨hck, hkl⟩ := hks k (by simp)
    by_cases h1 : r.getD k 0 = 0
    · rw [scanKs_skip ks h1]
      exact ih fun x hx => hks x (by simp [hx])
    · by_cases h2 : r.getD c 0 = 0
      · rw [scanKs_relocate ks h1 h2]
        dsimp only
        have e1 := sum_set_add (r.set c (r.getD k 0)) k 0 (by simpa using hkl)
        have e2 := sum_set_add r c (r.getD k 0) hc
        rw [@getD_set_other r c k (r.getD k 0) 0 (by omega)] at e1
        rw [h2] at e2
        omega
      · by_cases h3 : r.getD c 0 = r.getD k 0
        · rw [scanKs_merge ks h1 h2 h3]
          dsimp only
          have e1 := sum_set_add (r.set c (2 * r.getD c 0)) k 0 (by simpa using hkl)
          have e2 := sum_set_add r c (2 * r.getD c 0) hc
          rw [@getD_set_other r c k (2 * r.getD c 0) 0 (by omega), ← h3] at e1
          omega
        · rw [scanKs_stuck ks h1 h2 h3]

theorem scanKs_nz (r : Row) (c : Nat) (ks : List Nat) (hc : c < r.length)
    (hks : ∀ k ∈ ks, c < k ∧ k < r.length) : nzRow (scanKs r c ks).1 ≤ nzRow r := by
  induction ks with
  | nil => exact Nat.le_refl _
  | cons k ks ih =>
    obtain ⟨hck, hkl⟩ := hks k (by simp)
    by_cases h1 : r.getD k 0 = 0
    · rw [scanKs_skip ks h1]
      exact ih fun x hx => hks x (by simp [hx])
    · by_cases h2 : r.getD c 0 = 0
      · rw [scanKs_relocate ks h1 h2]
        dsimp only
        have e1 := nzRow_set (r.set c (r.getD k 0)) k 0 (by simpa using hkl)
        have e2 := nzRow_set r c (r.getD k 0) hc
        rw [@getD_set_other r c k (r.getD k 0) 0 (by omega)] at e1
        rw [if_pos h1] at e1 e2
        rw [if_neg (not_not_intro h2)] at e2
        simp only [ne_eq, not_true_eq_false, if_false] at e1
        omega
      · by_cases h3 : r.getD c 0 = r.getD k 0
        · rw [scanKs_merge ks h1 h2 h3]
          dsimp only
          have e1 := nzRow_set (r.set c (2 * r.getD c 0)) k 0 (by simpa using hkl)
          have e2 := nzRow_set r c (2 * r.getD c 0) hc
          rw [@getD_set_other r c k (2 * r.getD c 0) 0 (by omega), ← h3] at e1
          rw [if_pos h2] at e1 e2
          rw [if_pos (by omega : 2 * r.getD c 0 ≠ 0)] at e2
          simp only [ne_eq, not_true_eq_false, if_false] at e1
          omega
        · rw [scanKs_stuck ks h1 h2 h3]

theorem mergeStep_sum (r : Row) (c : Nat) (h4 : r.length = 4) (hc : c < 3) :
    (mergeStep r c).1.sum = r.sum :=
  scanKs_sum r c _ (by omega) fun k hk => by
    have := mergeStep_candidates hc hk
    omega

theorem mergeStep_nz (r : Row) (c : Nat) (h4 : r.length = 4) (hc : c < 3) :
    nzRow (mergeStep r c).1 ≤ nzRow r :=
  scanKs_nz r c _ (by omega) fun k hk => by
    have := mergeStep_candidates hc hk
    omega

theorem colsLoop_sum (r : Row) (ch : Bool) (cs : List Nat) (h4 : r.length = 4)
    (hcs : ∀ c ∈ cs, c < 3) : (colsLoop r ch cs).1.sum = r.sum := by
  induction cs generalizing r ch with
  | nil => rfl
  | cons c cs ih =>
    simp only [colsLoop]
    have h4' : (mergeStep r c).1.length = 4 := by rw [mergeStep_length, h4]
    rw [ih (mergeStep r c).1 (ch || (mergeStep r c).2) h4'
      (fun x hx => hcs x (by simp [hx]))]
    exact mergeStep_sum r c h4 (hcs c (by simp))

theorem colsLoop_nz (r : Row) (ch : Bool) (cs : List Nat) (h4 : r.length = 4)
    (hcs : ∀ c ∈ cs, c < 3) : nzRow (colsLoop r ch cs).1 ≤ nzRow r := by
  induction cs generalizing r ch with
  | nil => exact Nat.le_refl _
  | cons c cs ih =>
    simp only [colsLoop]
    have h4' : (mergeStep r c).1.length = 4 := by rw [mergeStep_length, h4]
    exact Nat.le_trans
      (ih (mergeStep r c).1 (ch || (mergeStep r c).2) h4'
        (fun x hx => hcs x (by simp [hx])))
      (mergeStep_nz r c h4 (hcs c (by simp)))

theorem moveRowLeft_sum {r : Row} (h4 : r.length = 4) :
    (moveRowLeft r).1.sum = r.sum :=
  colsLoop_sum r false (List.range 3) h4 fun _ hc => List.mem_range.mp hc

theorem moveRowLeft_nz {r : Row} (h4 : r.length = 4) :
    nzRow (moveRowLeft r).1 ≤ nzRow r :=
  colsLoop_nz r false (List.range 3) h4 fun _ hc => List.mem_range.mp hc

theorem boardSum_move_left {b : Board} (h : ∀ r ∈ b, r.length = 4) :
    boardSum (move_left b).1 = boardSum b := by
  rw [move_left_fst]
  unfold boardSum
  rw [List.map_map]
  exact congrArg List.sum (List.map_congr_left fun r hr => moveRowLeft_sum (h r hr))

theorem nzBoard_move_left {b : Board} (h : ∀ r ∈ b, r.length = 4) :
    nzBoard (move_left b).1 ≤ nzBoard b := by
  rw [move_left_fst]
  unfold nzBoard
  rw [List.map_map]
  exact List.sum_le_sum fun r hr => moveRowLeft_nz (h r hr)

theorem boardSum_reverseRows (b : Board) : boardSum (reverseRows b) = boardSum b := by
  unfold boardSum reverseRows
  rw [List.map_map]
  exact congrArg List.sum (List.map_congr_left fun r _ => List.sum_reverse r)

theorem nzBoard_reverseRows (b : Board) : nzBoard (reverseRows b) = nzBoard b := by
  unfold nzBoard reverseRows nzRow
  rw [List.map_map]
  exact congrArg List.sum (List.map_congr_left fun r _ => List.countP_reverse _ r)

theorem boardSum_transpose4 {b : Board} (h : Wf b) :
    boardSum (transpose4 b) = boardSum b := by
  obtain ⟨r0, r1, r2, r3, rfl, h0, h1, h2, h3⟩ := board_eq_of_wf h
  obtain ⟨a0, a1, a2, a3, rfl⟩ := row_eq_of_length4 h0
  obtain ⟨b0, b1, b2, b3, rfl⟩ := row_eq_of_length4 h1
  obtain ⟨c0, c1, c2, c3, rfl⟩ := row_eq_of_length4 h2
  obtain ⟨d0, d1, d2, d3, rfl⟩ := row_eq_of_length4 h3
  simp [boardSum, transpose4, zip4]
  ring

theorem nzBoard_transpose4 {b : Board} (h : Wf b) :
    nzBoard (transpose4 b) = nzBoard b := by
  obtain ⟨r0, r1, r2, r3, rfl, h0, h1, h2, h3⟩ := board_eq_of_wf h
  obtain ⟨a0, a1, a2, a3, rfl⟩ := row_eq_of_length4 h0
  obtain ⟨b0, b1, b2, b3, rfl⟩ := row_eq_of_length4 h1
  obtain ⟨c0, c1, c2, c3, rfl⟩ := row_eq_of_length4 h2
  obtain ⟨d0, d1, d2, d3, rfl⟩ := row_eq_of_length4 h3
  simp [nzBoard, nzRow, transpose4, zip4, List.countP_cons]
  ring

theorem boardSum_move_right {b : Board} (h : Wf b) :
    boardSum (move_right b).1 = boardSum b := by
  show boardSum (reverseRows (move_left (reverseRows b)).1) = boardSum b
  rw [boardSum_reverseRows, boardSum_move_left (reverseRows_wf h).2,
    boardSum_reverseRows]

theorem nzBoard_move_right {b : Board} (h : Wf b) :
    nzBoard (move_right b).1 ≤ nzBoard b := by
  show nzBoard (reverseRows (move_left (reverseRows b)).1) ≤ nzBoard b
  rw [nzBoard_reverseRows]
  calc nzBoard (move_left (reverseRows b)).1 ≤ nzBoard (reverseRows b) :=
        nzBoard_move_left (reverseRows_wf h).2
    _ = nzBoard b := nzBoard_reverseRows b

theorem boardSum_move_up {b : Board} (h : Wf b) :
    boardSum (move_up b).1 = boardSum b := by
  show boardSum (transpose4 (move_left (transpose4 b)).1) = boardSum b
  rw [boardSum_transpose4 (move_left_wf (transpose4_wf h)),
    boardSum_move_left (transpose4_wf h).2, boardSum_transpose4 h]

theorem nzBoard_move_up {b : Board} (h : Wf b) :
    nzBoard (move_up b).1 ≤ nzBoard b := by
  show nzBoard (transpose4 (move_left (transpose4 b)).1) ≤ nzBoard b
  rw [nzBoard_transpose4 (move_left_wf (transpose4_wf h))]
  calc nzBoard (move_left (transpose4 b)).1 ≤ nzBoard (transpose4 b) :=
        nzBoard_move_left (transpose4_wf h).2
    _ = nzBoard b := nzBoard_transpose4 h

theorem boardSum_move_down {b : Board} (h : Wf b) :
    boardSum (move_down b).1 = boardSum b := by
  show boardSum (transpose4 (move_right (transpose4 b)).1) = boardSum b
  rw [boardSum_transpose4 (move_right_wf (transpose4_wf h)),
    boardSum_move_right (transpose4_wf h), boardSum_transpose4 h]

theorem nzBoard_move_down {b : Board} (h : Wf b) :
    nzBoard (move_down b).1 ≤ nzBoard b := by
  show nzBoard (transpose4 (move_right (transpose4 b)).1) ≤ nzBoard b
  rw [nzBoard_transpose4 (move_right_wf (transpose4_wf h))]
  calc nzBoard (move_right (transpose4 b)).1 ≤ nzBoard (transpose4 b) :=
        nzBoard_move_right (transpose4_wf h)
    _ = nzBoard b := nzBoard_transpose4 h

/-! ### Cell-value predicates preserved by the operations -/

theorem cellsP_row_scanKs {P : Nat → Prop} (hP0 : P 0)
    (hPd : ∀ v, P v → P (2 * v)) {r : Row} (h : ∀ v ∈ r, P v) (c : Nat)
    (ks : List Nat) : ∀ v ∈ (scanKs r c ks).1, P v := by
  induction ks with
  | nil => exact h
  | cons k ks ih =>
    have hPk : P (r.getD k 0) := by
      rcases getD_mem_or r k 0 with hm | hd
      · exact h _ hm
      · rw [hd]
        exact hP0
    have hPc : P (r.getD c 0) := by
      rcases getD_mem_or r c 0 with hm | hd
      · exact h _ hm
      · rw [hd]
        exact hP0
    by_cases h1 : r.getD k 0 = 0
    · rw [scanKs_skip ks h1]
      exact ih
    · by_cases h2 : r.getD c 0 = 0
      · rw [scanKs_relocate ks h1 h2]
        intro v hv
        rcases List.mem_or_eq_of_mem_set hv with hv1 | rfl
        · rcases List.mem_or_eq_of_mem_set hv1 with hv2 | rfl
          · exact h v hv2
          · exact hPk
        · exact hP0
      · by_cases h3 : r.getD c 0 = r.getD k 0
        · rw [scanKs_merge ks h1 h2 h3]
          intro v hv
          rcases List.mem_or_eq_of_mem_set hv with hv1 | rfl
          · rcases List.mem_or_eq_of_mem_set hv1 with hv2 | rfl
            · exact h v hv2
            · exact hPd _ hPc
          · exact hP0
        · rw [scanKs_stuck ks h1 h2 h3]
          exact h

theorem cellsP_row_colsLoop {P : Nat → Prop} (hP0 : P 0)
    (hPd : ∀ v, P v → P (2 * v)) {r : Row} (h : ∀ v ∈ r, P v) (ch : Bool)
    (cs : List Nat) : ∀ v ∈ (colsLoop r ch cs).1, P v := by
  induction cs generalizing r ch with
  | nil => exact h
  | cons c cs ih =>
    simp only [colsLoop]
    exact ih (cellsP_row_scanKs hP0 hPd h c _) _

theorem cellsP_move_left {P : Nat → Prop} (hP0 : P 0)
    (hPd : ∀ v, P v → P (2 * v)) {b : Board} (h : CellsP P b) :
    CellsP P (move_left b).1 := by
  rw [move_left_fst]
  intro r hr
  obtain ⟨r0, hr0, rfl⟩ := List.mem_map.mp hr
  exact cellsP_row_colsLoop hP0 hPd (h r0 hr0) _ _

theorem cellsP_reverseRows {P : Nat → Prop} {b : Board} (h : CellsP P b) :
    CellsP P (reverseRows b) := by
  intro r hr
  obtain ⟨r0, hr0, rfl⟩ := List.mem_map.mp hr
  intro v hv
  exact h r0 hr0 v (List.mem_reverse.mp hv)

theorem mem_flatten_transpose4 {b : Board} (hWf : Wf b) (v : Nat) :
    v ∈ (transpose4 b).flatten ↔ v ∈ b.flatten := by
  obtain ⟨r0, r1, r2, r3, rfl, h0, h1, h2, h3⟩ := board_eq_of_wf hWf
  obtain ⟨a0, a1, a2, a3, rfl⟩ := row_eq_of_length4 h0
  obtain ⟨b0, b1, b2, b3, rfl⟩ := row_eq_of_length4 h1
  obtain ⟨c0, c1, c2, c3, rfl⟩ := row_eq_of_length4 h2
  obtain ⟨d0, d1, d2, d3, rfl⟩ := row_eq_of_length4 h3
  simp [transpose4, zip4]
  tauto

theorem cellsP_flatten {P : Nat → Prop} {b : Board} :
    CellsP P b ↔ ∀ v ∈ b.flatten, P v := by
  constructor
  · intro h v hv
    obtain ⟨l, hl, hvl⟩ := List.mem_flatten.mp hv
    exact h l hl v hvl
  · intro h r hr v hv
    exact h v (List.mem_flatten.mpr ⟨r, hr, hv⟩)

theorem cellsP_transpose4 {P : Nat → Prop} {b : Board} (hWf : Wf b)
    (h : CellsP P b) : CellsP P (transpose4 b) := by
  rw [cellsP_flatten] at h ⊢
  intro v hv
  exact h v ((mem_flatten_transpose4 hWf v).mp hv)

theorem cellsP_move_right {P : Nat → Prop} (hP0 : P 0)
    (hPd : ∀ v, P v → P (2 * v)) {b : Board} (h : CellsP P b) :
    CellsP P (move_right b).1 :=
  cellsP_reverseRows (cellsP_move_left hP0 hPd (cellsP_reverseRows h))

theorem cellsP_move_up {P : Nat → Prop} (hP0 : P 0)
    (hPd : ∀ v, P v → P (2 * v)) {b : Board} (hWf : Wf b) (h : CellsP P b) :
    CellsP P (move_up b).1 :=
  cellsP_transpose4 (move_left_wf (transpose4_wf hWf))
    (cellsP_move_left hP0 hPd (cellsP_transpose4 hWf h))

theorem cellsP_move_down {P : Nat → Prop} (hP0 : P 0)
    (hPd : ∀ v, P v → P (2 * v)) {b : Board} (hWf : Wf b) (h : CellsP P b) :
    CellsP P (move_down b).1 :=
  cellsP_transpose4 (move_right_wf (transpose4_wf hWf))
    (cellsP_move_right hP0 hPd (cellsP_transpose4 hWf h))

theorem rows_mem_or (b : Board) (i : Nat) :
    b.getD i [] ∈ b ∨ b.getD i [] = ([] : Row) := by
  rcases Nat.lt_or_ge i b.length with h | h
  · left
    rw [List.getD_eq_getElem _ _ h]
    exact List.getElem_mem h
  · right
    exact List.getD_eq_default _ _ h

theorem cellsP_setCell {P : Nat → Prop} {b : Board} (h : CellsP P b)
    {i j v : Nat} (hv : P v) : CellsP P (setCell b i j v) := by
  intro r hr
  rcases List.mem_or_eq_of_mem_set hr with hr1 | rfl
  · exact h r hr1
  · intro x hx
    rcases List.mem_or_eq_of_mem_set hx with hx1 | rfl
    · rcases rows_mem_or b i with hm | hd
      · exact h _ hm x hx1
      · rw [hd] at hx1
        exact absurd hx1 (List.not_mem_nil x)
    · exact hv

theorem cellsP_add_new_tile {P : Nat → Prop} (hP2 : P 2) (hP4 : P 4)
    {b : Board} (h : CellsP P b) (pick : Nat) (four : Bool) :
    CellsP P (add_new_tile b pick four) := by
  unfold add_new_tile
  by_cases he : (empty_cells b).isEmpty
  · rw [if_pos he]
    exact h
  · rw [if_neg he]
    apply cellsP_setCell h
    cases four <;> simp [hP2, hP4]

theorem setCell_wf {b : Board} (h : Wf b) (i j v : Nat) :
    Wf (setCell b i j v) := by
  obtain ⟨hlen, hrow⟩ := h
  rcases Nat.lt_or_ge i b.length with hi | hi
  · constructor
    · rw [setCell, List.length_set, hlen]
    · intro r hr
      rcases List.mem_or_eq_of_mem_set hr with hr1 | rfl
      · exact hrow r hr1
      · rw [List.length_set, List.getD_eq_getElem _ _ hi]
        exact hrow _ (List.getElem_mem hi)
  · rw [setCell, List.set_eq_of_length_le hi]
    exact ⟨hlen, hrow⟩

theorem add_new_tile_wf {b : Board} (h : Wf b) (pick : Nat) (four : Bool) :
    Wf (add_new_tile b pick four) := by
  unfold add_new_tile
  by_cases he : (empty_cells b).isEmpty
  · rw [if_pos he]
    exact h
  · rw [if_neg he]
    exact setCell_wf h _ _ _

/-! ### The Spawner -/

theorem mem_empty_cells {b : Board} {i j : Nat} :
    (i, j) ∈ empty_cells b ↔ i < 4 ∧ j < 4 ∧ cell b i j = 0 := by
  simp only [empty_cells, List.mem_flatMap, List.mem_map, List.mem_filter,
    List.mem_range, cell, Prod.mk.injEq]
  constructor
  · rintro ⟨a, ha, x, ⟨hx, h0⟩, rfl, rfl⟩
    exact ⟨ha, hx, by simpa using h0⟩
  · rintro ⟨hi, hj, h0⟩
    exact ⟨i, hi, j, ⟨hj, by simpa using h0⟩, rfl, rfl⟩

/-- A spawn on a board with an empty cell writes `2` or `4` into one of the
enumerated empty cells. -/
theorem add_new_tile_pick {b : Board} (pick : Nat) (four : Bool)
    (hne : empty_cells b ≠ []) :
    ∃ i j, (i, j) ∈ empty_cells b ∧
      add_new_tile b pick four = setCell b i j (if four then 4 else 2) := by
  have hlen : 0 < (empty_cells b).length := List.length_pos_of_ne_nil hne
  have hmod : pick % (empty_cells b).length < (empty_cells b).length :=
    Nat.mod_lt _ hlen
  have he : (empty_cells b).isEmpty = false := List.isEmpty_eq_false.mpr hne
  refine ⟨((empty_cells b).getD (pick % (empty_cells b).length) (0, 0)).1,
    ((empty_cells b).getD (pick % (empty_cells b).length) (0, 0)).2, ?_, ?_⟩
  · have hm : (empty_cells b).getD (pick % (empty_cells b).length) (0, 0) ∈
        empty_cells b := by
      rw [List.getD_eq_getElem _ _ hmod]
      exact List.getElem_mem hmod
    rw [Prod.mk.eta]
    exact hm
  · simp only [add_new_tile, he, Bool.false_eq_true, if_false]

theorem add_new_tile_full {b : Board} (pick : Nat) (four : Bool)
    (he : empty_cells b = []) : add_new_tile b pick four = b := by
  simp [add_new_tile, he]

theorem getD_map_row {f : Row → Nat} {b : Board} {i : Nat} (hi : i < b.length) :
    (b.map f).getD i 0 = f (b.getD i []) := by
  rw [List.getD_eq_getElem _ _ (by simpa using hi), List.getElem_map,
    List.getD_eq_getElem _ _ hi]

theorem row_of_cell {b : Board} (h : Wf b) {i : Nat} (hi : i < 4) :
    (b.getD i []).length = 4 := by
  obtain ⟨hlen, hrow⟩ := h
  rw [List.getD_eq_getElem _ _ (by omega)]
  exact hrow _ (List.getElem_mem (by omega))

theorem zBoard_setCell {b : Board} (h : Wf b) {i j : Nat} (hi : i < 4)
    (hj : j < 4) (h0 : cell b i j = 0) {v : Nat} (hv : v ≠ 0) :
    zBoard (setCell b i j v) + 1 = zBoard b := by
  have hil : i < b.length := by rw [h.1]; exact hi
  have hjl : j < (b.getD i []).length := by rw [row_of_cell h hi]; exact hj
  have hcell : (b.getD i []).getD j 0 = 0 := h0
  have e1 : zRow ((b.getD i []).set j v) + 1 = zRow (b.getD i []) := by
    have h' := countP_set_add (fun x => x = 0) (b.getD i []) j v hjl
    rw [hcell] at h'
    simp only [decide_eq_true_eq, if_true] at h'
    rw [if_neg hv] at h'
    unfold zRow
    omega
  have e2 := sum_set_add (b.map zRow) i (zRow ((b.getD i []).set j v))
    (by simpa using hil)
  rw [getD_map_row hil] at e2
  show ((b.set i ((b.getD i []).set j v)).map zRow).sum + 1 = (b.map zRow).sum
  rw [List.map_set]
  omega

theorem nzBoard_setCell {b : Board} (h : Wf b) {i j : Nat} (hi : i < 4)
    (hj : j < 4) (h0 : cell b i j = 0) {v : Nat} (hv : v ≠ 0) :
    nzBoard (setCell b i j v) = nzBoard b + 1 := by
  have hil : i < b.length := by rw [h.1]; exact hi
  have hjl : j < (b.getD i []).length := by rw [row_of_cell h hi]; exact hj
  have hcell : (b.getD i []).getD j 0 = 0 := h0
  have e1 : nzRow ((b.getD i []).set j v) = nzRow (b.getD i []) + 1 := by
    have h' := nzRow_set (b.getD i []) j v hjl
    rw [hcell, if_neg (not_not_intro rfl), if_pos hv] at h'
    omega
  have e2 := sum_set_add (b.map nzRow) i (nzRow ((b.getD i []).set j v))
    (by simpa using hil)
  rw [getD_map_row hil] at e2
  show ((b.set i ((b.getD i []).set j v)).map nzRow).sum = (b.map nzRow).sum + 1
  rw [List.map_set]
  omega

theorem zRow_add_nzRow {r : Row} (h4 : r.length = 4) : zRow r + nzRow r = 4 := by
  have hl := List.length_eq_countP_add_countP (fun v => decide (v = 0)) r
  have e : r.countP (fun a => decide ¬(decide (a = 0) = true)) =
      r.countP (fun v => v ≠ 0) := by
    apply List.countP_congr
    intro x hx
    simp
  rw [h4] at hl
  unfold zRow nzRow
  omega

theorem zBoard_add_nzBoard {b : Board} (h : Wf b) : zBoard b + nzBoard b = 16 := by
  obtain ⟨r0, r1, r2, r3, rfl, h0, h1, h2, h3⟩ := board_eq_of_wf h
  have e0 := zRow_add_nzRow h0
  have e1 := zRow_add_nzRow h1
  have e2 := zRow_add_nzRow h2
  have e3 := zRow_add_nzRow h3
  simp only [zBoard, nzBoard, List.map_cons, List.map_nil, List.sum_cons,
    List.sum_nil]
  omega

theorem filter_zero_length (a b c d : Nat) :
    ((([0, 1, 2, 3] : List Nat)).filter fun j => ([a, b, c, d] : Row).getD j 0 = 0).length
      = zRow [a, b, c, d] := by
  by_cases ha : a = 0 <;> by_cases hb : b = 0 <;> by_cases hc : c = 0 <;>
    by_cases hd : d = 0 <;>
    simp [zRow, List.countP_cons, List.filter, List.getD, ha, hb, hc, hd]

/-- The inner scan at column `c` is exactly the spec's `resolveSpec`. -/
theorem mergeStep_eq_resolveSpec (r : Row) (c : Nat) :
    mergeStep r c = resolveSpec r c :=
  scanKs_eq_find r c _

/-- The row loop is exactly the spec's sequence of three resolutions. -/
theorem moveRowLeft_eq_specRowLeft (r : Row) : moveRowLeft r = specRowLeft r := by
  have hr : List.range 3 = [0, 1, 2] := rfl
  unfold moveRowLeft specRowLeft
  rw [hr]
  simp only [colsLoop, mergeStep_eq_resolveSpec, Bool.false_or]

theorem length_empty_cells {b : Board} (h : Wf b) : emptyCount b = zBoard b := by
  obtain ⟨r0, r1, r2, r3, rfl, h0, h1, h2, h3⟩ := board_eq_of_wf h
  obtain ⟨a0, a1, a2, a3, rfl⟩ := row_eq_of_length4 h0
  obtain ⟨b0, b1, b2, b3, rfl⟩ := row_eq_of_length4 h1
  obtain ⟨c0, c1, c2, c3, rfl⟩ := row_eq_of_length4 h2
  obtain ⟨d0, d1, d2, d3, rfl⟩ := row_eq_of_length4 h3
  have hr : List.range 4 = [0, 1, 2, 3] := rfl
  unfold emptyCount empty_cells
  rw [hr]
  simp only [List.flatMap_cons, List.flatMap_nil, List.append_nil,
    List.length_append, List.length_map, List.getD_cons_zero, List.getD_cons_succ]
  rw [filter_zero_length, filter_zero_length, filter_zero_length, filter_zero_length]
  simp only [zBoard, List.map_cons, List.map_nil, List.sum_cons, List.sum_nil]
  omega

theorem nzBoard_add_new_tile {b : Board} (hW : Wf b) (hne : empty_cells b ≠ [])
    (pick : Nat) (four : Bool) :
    nzBoard (add_new_tile b pick four) = nzBoard b + 1 := by
  obtain ⟨i, j, hm, heq⟩ := add_new_tile_pick pick four hne
  obtain ⟨hi, hj, hc0⟩ := mem_empty_cells.mp hm
  rw [heq]
  exact nzBoard_setCell hW hi hj hc0 (by cases four <;> simp)

theorem zBoard_add_new_tile {b : Board} (hW : Wf b) (hne : empty_cells b ≠ [])
    (pick : Nat) (four : Bool) :
    zBoard (add_new_tile b pick four) + 1 = zBoard b := by
  obtain ⟨i, j, hm, heq⟩ := add_new_tile_pick pick four hne
  obtain ⟨hi, hj, hc0⟩ := mem_empty_cells.mp hm
  rw [heq]
  exact zBoard_setCell hW hi hj hc0 (by cases four <;> simp)

theorem empty_cells_ne_nil_of_z {b : Board} (hW : Wf b) (hz : zBoard b ≠ 0) :
    empty_cells b ≠ [] := by
  intro hnil
  have hb := length_empty_cells hW
  unfold emptyCount at hb
  rw [hnil] at hb
  exact hz hb.symm

/-! ### The tile invariant -/

theorem isTile_zero : IsTile 0 := Or.inl rfl

theorem isTile_double : ∀ v, IsTile v → IsTile (2 * v) := by
  intro v h
  rcases h with rfl | ⟨n, rfl⟩
  · exact Or.inl rfl
  · exact Or.inr ⟨n + 1, by ring⟩

theorem isTile_two : IsTile 2 := Or.inr ⟨0, rfl⟩

theorem isTile_four : IsTile 4 := Or.inr ⟨1, rfl⟩

theorem step_preserves_inv {b b' : Board} (h : Wf b ∧ CellsP IsTile b)
    (hs : Step b b') : Wf b' ∧ CellsP IsTile b' := by
  cases hs with
  | left =>
    exact ⟨move_left_wf h.1, cellsP_move_left isTile_zero isTile_double h.2⟩
  | right =>
    exact ⟨move_right_wf h.1, cellsP_move_right isTile_zero isTile_double h.2⟩
  | up =>
    exact ⟨move_up_wf h.1, cellsP_move_up isTile_zero isTile_double h.1 h.2⟩
  | down =>
    exact ⟨move_down_wf h.1, cellsP_move_down isTile_zero isTile_double h.1 h.2⟩
  | spawn pick four =>
    exact ⟨add_new_tile_wf h.1 pick four,
      cellsP_add_new_tile isTile_two isTile_four h.2 pick four⟩

theorem emptyBoard_wf : Wf emptyBoard := ⟨rfl, by decide⟩

theorem cellsP_emptyBoard {P : Nat → Prop} (hP0 : P 0) : CellsP P emptyBoard := by
  intro r hr v hv
  rw [List.eq_of_mem_replicate hr] at hv
  rw [List.eq_of_mem_replicate hv]
  exact hP0

theorem initGame_inv (p1 : Nat) (f1 : Bool) (p2 : Nat) (f2 : Bool) :
    Wf (initGame p1 f1 p2 f2) ∧ CellsP IsTile (initGame p1 f1 p2 f2) := by
  have h1 : Wf (add_new_tile emptyBoard p1 f1) ∧
      CellsP IsTile (add_new_tile emptyBoard p1 f1) :=
    ⟨add_new_tile_wf emptyBoard_wf p1 f1,
      cellsP_add_new_tile isTile_two isTile_four (cellsP_emptyBoard isTile_zero) p1 f1⟩
  exact ⟨add_new_tile_wf h1.1 p2 f2,
    cellsP_add_new_tile isTile_two isTile_four h1.2 p2 f2⟩

theorem reachable_inv {b : Board} (h : Reachable b) : Wf b ∧ CellsP IsTile b := by
  induction h with
  | init p1 f1 p2 f2 => exact initGame_inv p1 f1 p2 f2
  | step hr hs ih => exact step_preserves_inv ih hs

/-! ### The claims -/

/-- Claim C1: for every board, the Left move processes each row independently,
and on each row it performs, for `c = 0, 1, 2` in increasing order, exactly
one resolution against the first non-zero cell among columns `c+1 .. 3`
(relocate into an empty `c`, merge equal values, or leave both untouched),
never re-scanning a column position. -/
theorem left_merge_algorithm (b : Board) :
    (move_left b).1 = b.map (fun r => (specRowLeft r).1) ∧
    (move_left b).2 = b.any (fun r => (specRowLeft r).2) := by
  have hfun : moveRowLeft = specRowLeft := funext moveRowLeft_eq_specRowLeft
  rw [move_left_fst, move_left_snd, hfun]
  exact ⟨rfl, rfl⟩

/-- Claim C2: the Left move turns a row `[2,2,2,2]` into `[4,2,2,0]` and a row
`[4,0,4,0]` into `[8,0,0,0]`, reporting `changed = true` in both cases. -/
theorem example_rows_left (b : Board) (i : Nat) (hi : i < b.length) :
    (b.getD i [] = [2, 2, 2, 2] →
      (move_left b).1.getD i [] = [4, 2, 2, 0] ∧ (move_left b).2 = true) ∧
    (b.getD i [] = [4, 0, 4, 0] →
      (move_left b).1.getD i [] = [8, 0, 0, 0] ∧ (move_left b).2 = true) := by
  have hfst : (move_left b).1.getD i [] = (moveRowLeft (b.getD i [])).1 := by
    rw [move_left_fst, List.getD_eq_getElem _ _ (by simpa using hi),
      List.getElem_map, List.getD_eq_getElem _ _ hi]
  have hmem : b.getD i [] ∈ b := by
    rw [List.getD_eq_getElem _ _ hi]
    exact List.getElem_mem hi
  constructor
  · intro hrow
    refine ⟨by rw [hfst, hrow]; decide, ?_⟩
    rw [move_left_snd, List.any_eq_true]
    refine ⟨b.getD i [], hmem, ?_⟩
    show (moveRowLeft (b.getD i [])).2 = true
    rw [hrow]
    decide
  · intro hrow
    refine ⟨by rw [hfst, hrow]; decide, ?_⟩
    rw [move_left_snd, List.any_eq_true]
    refine ⟨b.getD i [], hmem, ?_⟩
    show (moveRowLeft (b.getD i [])).2 = true
    rw [hrow]
    decide

theorem example_rows_left_witness :
    (move_left [[2,2,2,2],[4,0,4,0],[0,0,0,0],[0,0,0,0]]).1.getD 0 [] = [4,2,2,0] ∧
    (move_left [[2,2,2,2],[4,0,4,0],[0,0,0,0],[0,0,0,0]]).2 = true :=
  (example_rows_left [[2,2,2,2],[4,0,4,0],[0,0,0,0],[0,0,0,0]] 0 (by decide)).1
    (by decide)

/-- Claim C3: Right is reverse-rows / Left / reverse-rows, Up is transpose /
Left / transpose, Down is transpose / Right (spelled out as reverse-rows /
Left / reverse-rows) / transpose, and in each case the changed flag is the
one returned by the inner Left call. -/
theorem derived_directions (b : Board) :
    move_right b = rightSpec b ∧ move_up b = upSpec b ∧ move_down b = downSpec b ∧
    (move_right b).2 = (move_left (b.map List.reverse)).2 ∧
    (move_up b).2 = (move_left (transpose4 b)).2 ∧
    (move_down b).2 = (move_left ((transpose4 b).map List.reverse)).2 :=
  ⟨rfl, rfl, rfl, rfl, rfl, rfl⟩

/-- Claim C4: for every 4×4 board and every direction, the move returns
`false` iff the board after the call is cell-wise identical to the board
before the call. -/
theorem changed_iff_board_differs (b : Board) (hW : Wf b) :
    ((move_left b).2 = false ↔ (move_left b).1 = b) ∧
    ((move_right b).2 = false ↔ (move_right b).1 = b) ∧
    ((move_up b).2 = false ↔ (move_up b).1 = b) ∧
    ((move_down b).2 = false ↔ (move_down b).1 = b) :=
  ⟨move_left_flag_iff hW.2, move_right_flag_iff hW, move_up_flag_iff hW,
    move_down_flag_iff hW⟩

theorem changed_iff_board_differs_witness :
    ((move_left emptyBoard).2 = false ↔ (move_left emptyBoard).1 = emptyBoard) ∧
    ((move_right emptyBoard).2 = false ↔ (move_right emptyBoard).1 = emptyBoard) ∧
    ((move_up emptyBoard).2 = false ↔ (move_up emptyBoard).1 = emptyBoard) ∧
    ((move_down emptyBoard).2 = false ↔ (move_down emptyBoard).1 = emptyBoard) :=
  changed_iff_board_differs emptyBoard ⟨rfl, by decide⟩

/-- Claim C5: every board state reachable from construction by move and spawn
operations has only cells that are `0` or a positive power of 2. -/
theorem reachable_cells_are_tiles {b : Board} (h : Reachable b) :
    CellsP IsTile b :=
  (reachable_inv h).2

theorem reachable_cells_are_tiles_witness : IsTile 2 :=
  reachable_cells_are_tiles (Reachable.init 0 false 0 false) [2, 2, 0, 0]
    (by decide) 2 (by decide)

/-- Claim C6: no move increases the number of non-zero cells. -/
theorem nz_not_increasing (b : Board) (hW : Wf b) :
    nzBoard (move_left b).1 ≤ nzBoard b ∧ nzBoard (move_right b).1 ≤ nzBoard b ∧
    nzBoard (move_up b).1 ≤ nzBoard b ∧ nzBoard (move_down b).1 ≤ nzBoard b :=
  ⟨nzBoard_move_left hW.2, nzBoard_move_right hW, nzBoard_move_up hW,
    nzBoard_move_down hW⟩

theorem nz_not_increasing_witness :
    nzBoard (move_left emptyBoard).1 ≤ nzBoard emptyBoard ∧
    nzBoard (move_right emptyBoard).1 ≤ nzBoard emptyBoard ∧
    nzBoard (move_up emptyBoard).1 ≤ nzBoard emptyBoard ∧
    nzBoard (move_down emptyBoard).1 ≤ nzBoard emptyBoard :=
  nz_not_increasing emptyBoard ⟨rfl, by decide⟩

/-- Claim C7: on a board with an empty cell, a spawn writes `2` or `4` into one
previously empty cell and decreases the empty-cell count by exactly 1; on a
full board it is a no-op. -/
theorem spawn_spec (b : Board) (pick : Nat) (four : Bool) (hW : Wf b) :
    (emptyCount b ≠ 0 →
      emptyCount (add_new_tile b pick four) + 1 = emptyCount b ∧
      ∃ i j w, i < 4 ∧ j < 4 ∧ cell b i j = 0 ∧ (w = 2 ∨ w = 4) ∧
        add_new_tile b pick four = setCell b i j w) ∧
    (emptyCount b = 0 → add_new_tile b pick four = b) := by
  constructor
  · intro hne0
    have hne : empty_cells b ≠ [] := by
      intro hnil
      apply hne0
      unfold emptyCount
      rw [hnil]
      rfl
    obtain ⟨i, j, hm, heq⟩ := add_new_tile_pick pick four hne
    obtain ⟨hi, hj, hc0⟩ := mem_empty_cells.mp hm
    constructor
    · have hWs : Wf (add_new_tile b pick four) := add_new_tile_wf hW pick four
      rw [length_empty_cells hWs, length_empty_cells hW, heq]
      exact zBoard_setCell hW hi hj hc0 (by cases four <;> simp)
    · exact ⟨i, j, if four then 4 else 2, hi, hj, hc0,
        (by cases four <;> simp), heq⟩
  · intro h0
    apply add_new_tile_full
    exact List.eq_nil_of_length_eq_zero h0

theorem spawn_spec_witness :
    emptyCount (add_new_tile emptyBoard 0 false) + 1 = emptyCount emptyBoard :=
  ((spawn_spec emptyBoard 0 false ⟨rfl, by decide⟩).1 (by decide)).1

/-- Claim C8: immediately after construction, exactly two cells are non-zero
and every cell is `0`, `2` or `4` (so the two non-zero cells hold `2` or
`4`). -/
theorem init_two_tiles (p1 : Nat) (f1 : Bool) (p2 : Nat) (f2 : Bool) :
    nzBoard (initGame p1 f1 p2 f2) = 2 ∧
    CellsP (fun v => v = 0 ∨ v = 2 ∨ v = 4) (initGame p1 f1 p2 f2) := by
  have hW0 : Wf emptyBoard := emptyBoard_wf
  have hne0 : empty_cells emptyBoard ≠ [] := by decide
  have hW1 : Wf (add_new_tile emptyBoard p1 f1) := add_new_tile_wf hW0 p1 f1
  have hz1 : zBoard (add_new_tile emptyBoard p1 f1) + 1 = zBoard emptyBoard :=
    zBoard_add_new_tile hW0 hne0 p1 f1
  have hz0 : zBoard emptyBoard = 16 := by decide
  have hne1 : empty_cells (add_new_tile emptyBoard p1 f1) ≠ [] :=
    empty_cells_ne_nil_of_z hW1 (by omega)
  constructor
  · show nzBoard (add_new_tile (add_new_tile emptyBoard p1 f1) p2 f2) = 2
    rw [nzBoard_add_new_tile hW1 hne1 p2 f2, nzBoard_add_new_tile hW0 hne0 p1 f1]
    decide
  · exact cellsP_add_new_tile (Or.inr (Or.inl rfl)) (Or.inr (Or.inr rfl))
      (cellsP_add_new_tile (Or.inr (Or.inl rfl)) (Or.inr (Or.inr rfl))
        (cellsP_emptyBoard (Or.inl rfl)) p1 f1) p2 f2

theorem init_two_tiles_witness : nzBoard (initGame 0 false 0 false) = 2 :=
  (init_two_tiles 0 false 0 false).1

/-- Claim C9: the loop lower-cases the input line; `q` terminates; `w`, `s`,
`a`, `d` run Up, Down, Left, Right and spawn exactly once when the move
reports a change; any other input leaves the board untouched. -/
theorem main_dispatch (b : Board) (s : String) (pick : Nat) (four : Bool) :
    (strLower s = "q" → loopStep b s pick four = none) ∧
    (strLower s = "w" → loopStep b s pick four =
      some (if (move_up b).2 then add_new_tile (move_up b).1 pick four
        else (move_up b).1)) ∧
    (strLower s = "s" → loopStep b s pick four =
      some (if (move_down b).2 then add_new_tile (move_down b).1 pick four
        else (move_down b).1)) ∧
    (strLower s = "a" → loopStep b s pick four =
      some (if (move_left b).2 then add_new_tile (move_left b).1 pick four
        else (move_left b).1)) ∧
    (strLower s = "d" → loopStep b s pick four =
      some (if (move_right b).2 then add_new_tile (move_right b).1 pick four
        else (move_right b).1)) ∧
    (strLower s ≠ "q" → strLower s ≠ "w" → strLower s ≠ "s" → strLower s ≠ "a" →
      strLower s ≠ "d" → loopStep b s pick four = some b) := by
  refine ⟨?_, ?_, ?_, ?_, ?_, ?_⟩
  · intro h
    simp [loopStep, h]
  · intro h
    simp [loopStep, keyDir, h, applyDir]
  · intro h
    simp [loopStep, keyDir, h, applyDir]
  · intro h
    simp [loopStep, keyDir, h, applyDir]
  · intro h
    simp [loopStep, keyDir, h, applyDir]
  · intro h1 h2 h3 h4 h5
    simp [loopStep, keyDir, h1, h2, h3, h4, h5]

theorem main_dispatch_witness : loopStep emptyBoard "x" 0 false = some emptyBoard :=
  (main_dispatch emptyBoard "x" 0 false).2.2.2.2.2 (by decide) (by decide)
    (by decide) (by decide) (by decide)

/-- Claim C10: every move preserves the sum of all cell values. -/
theorem sum_preserved (b : Board) (hW : Wf b) :
    boardSum (move_left b).1 = boardSum b ∧
    boardSum (move_right b).1 = boardSum b ∧
    boardSum (move_up b).1 = boardSum b ∧
    boardSum (move_down b).1 = boardSum b :=
  ⟨boardSum_move_left hW.2, boardSum_move_right hW, boardSum_move_up hW,
    boardSum_move_down hW⟩

theorem sum_preserved_witness :
    boardSum (move_left emptyBoard).1 = boardSum emptyBoard ∧
    boardSum (move_right emptyBoard).1 = boardSum emptyBoard ∧
    boardSum (move_up emptyBoard).1 = boardSum emptyBoard ∧
    boardSum (move_down emptyBoard).1 = boardSum emptyBoard :=
  sum_preserved emptyBoard ⟨rfl, by decide⟩

end Game1024
